import Mathlib

/-!
Shallow embedding of the audio-CTF backend (src/api/index.py).

Strings are modelled as lists of ASCII codepoints (`List Nat`); Python
integers as `Int`; floating-point phase values as exact rationals `ℚ`,
with `np.angle (fft data)` abstracted as an arbitrary rational list of
the same length as the input signal.
-/

/-- One ASCII codepoint per character of a Lean string literal. -/
def ascii (s : String) : List Nat := s.toList.map Char.toNat

/-- Python str.isalpha for an ASCII codepoint. -/
def isAlphaCode (c : Nat) : Bool :=
  (65 ≤ c && c ≤ 90) || (97 ≤ c && c ≤ 122)

/-- Python str.upper for an ASCII codepoint. -/
def upperCode (c : Nat) : Nat :=
  if 97 ≤ c && c ≤ 122 then c - 32 else c

/-- Python str.lower for an ASCII codepoint. -/
def lowerCode (c : Nat) : Nat :=
  if 65 ≤ c && c ≤ 90 then c + 32 else c

def upperStr (s : List Nat) : List Nat := s.map upperCode

def lowerStr (s : List Nat) : List Nat := s.map lowerCode

/-- Python whitespace (ASCII) for str.strip. -/
def isSpaceCode (c : Nat) : Bool := c == 32 || (9 ≤ c && c ≤ 13)

/-- Python str.strip (ASCII whitespace). -/
def pyStrip (s : List Nat) : List Nat :=
  ((s.dropWhile isSpaceCode).reverse.dropWhile isSpaceCode).reverse

/-! ## Caesar + Vigenère decryption (advanced_vigenere_decrypt) -/

/-- The Caesar stage applied to one character:
`chr((ord(char.upper()) - 65 - caesar_shift) % 26 + 65)` for alphabetic
characters, identity otherwise. -/
def caesarShiftChar (caesar_shift : ℤ) (c : Nat) : Nat :=
  if isAlphaCode c then
    (((upperCode c : ℤ) - 65 - caesar_shift) % 26 + 65).toNat
  else c

/-- First stage of advanced_vigenere_decrypt: Caesar decryption of every
character of the ciphertext. -/
def caesarStage (caesar_shift : ℤ) (ciphertext : List Nat) : List Nat :=
  ciphertext.map (caesarShiftChar caesar_shift)

/-- The key value `ord(key[key_index % len(key)]) - 65`. -/
def keyCharVal (key : List Nat) (i : Nat) : ℤ :=
  (key.getD (i % key.length) 0 : ℤ) - 65

/-- Second stage of advanced_vigenere_decrypt: Vigenère decryption, with
the key index advanced only on alphabetic characters. -/
def vigenereGo (key : List Nat) : Nat → List Nat → List Nat
  | _, [] => []
  | key_index, c :: rest =>
    if isAlphaCode c then
      (((upperCode c : ℤ) - 65 - keyCharVal key key_index) % 26 + 65).toNat
        :: vigenereGo key (key_index + 1) rest
    else
      c :: vigenereGo key key_index rest

/-- advanced_vigenere_decrypt from src/api/index.py: empty ciphertext or
empty key short-circuits to the empty string, otherwise Caesar decryption
followed by Vigenère decryption under the uppercased key. -/
def advanced_vigenere_decrypt (ciphertext key : List Nat) (caesar_shift : ℤ) : List Nat :=
  if ciphertext = [] ∨ key = [] then []
  else vigenereGo (upperStr key) 0 (caesarStage caesar_shift ciphertext)

/-! Reference encryption functions: the inverses of the two decryption
stages, written from the description of the cipher in the spec (spec-side
definitions used to state the round-trip claim). -/

/-- Reference inverse of the Caesar stage: shift every alphabetic
character forward by the shift, after uppercasing. -/
def caesar_encrypt (caesar_shift : ℤ) (text : List Nat) : List Nat :=
  text.map (fun c =>
    if isAlphaCode c then
      (((upperCode c : ℤ) - 65 + caesar_shift) % 26 + 65).toNat
    else c)

/-- Reference inverse of the Vigenère stage, indexing the key across
alphabetic characters only. -/
def vigenereEncGo (key : List Nat) : Nat → List Nat → List Nat
  | _, [] => []
  | key_index, c :: rest =>
    if isAlphaCode c then
      (((upperCode c : ℤ) - 65 + keyCharVal key key_index) % 26 + 65).toNat
        :: vigenereEncGo key (key_index + 1) rest
    else
      c :: vigenereEncGo key key_index rest

/-- Reference Vigenère encryption under the uppercased key. -/
def vigenere_encrypt (key text : List Nat) : List Nat :=
  vigenereEncGo (upperStr key) 0 text

/-! ## Solution scoring (check_solution_complexity) -/

/-- Python substring test `sub in s` over codepoint lists. -/
def pyInStr (sub : List Nat) : List Nat → Bool
  | [] => sub.isEmpty
  | c :: rest => sub.isPrefixOf (c :: rest) || pyInStr sub rest

def success_indicators : List (List Nat) :=
  [ascii ("FLAG\x7b"), ascii ("CTF\x7b"), ascii ("ETERNA"), ascii ("GHOST"),
   ascii ("GIRATINA"), ascii ("DISTORTION"), ascii ("WORLD"),
   ascii ("PLATINUM"), ascii ("SINNOH")]

def pokemon_names : List (List Nat) :=
  [ascii ("GIRATINA"), ascii ("DIALGA"), ascii ("PALKIA"), ascii ("ARCEUS"),
   ascii ("DARKRAI"), ascii ("CRESSELIA"), ascii ("ROTOM"), ascii ("SPIRITOMB")]

/-- check_solution_complexity from src/api/index.py: 10 points when the
uppercased decrypted text contains a success indicator, 5 more when the
uppercased key is one of the listed names; success when the score
reaches 15. -/
def check_solution_complexity (decrypted_text pokemon_key : List Nat) : Bool :=
  let score : Nat :=
    (if success_indicators.any (fun ind => pyInStr ind (upperStr decrypted_text))
      then 10 else 0)
    + (if pokemon_names.contains (upperStr pokemon_key) then 5 else 0)
  decide (15 ≤ score)

/-! ## Upload handler: filename validation (upload_file) -/

/-- The filename validation of upload_file: empty filename and
non-`.wav` filename each yield a 400 response with the corresponding
error message; otherwise validation passes (`none`). -/
def upload_check (filename : List Nat) : Option (List Nat × Nat) :=
  if filename = [] then some (ascii ("No file selected"), 400)
  else if ¬ ((ascii (".wav")).isSuffixOf (lowerStr filename) = true) then
    some (ascii ("Only WAV files are accepted"), 400)
  else none

/-! ## Decrypt handler (decrypt_cipher) -/

structure DecryptResponse where
  success : Bool
  decrypted_message : List Nat
  congratulations : Bool
  complexity_score : List Nat
  hint : List Nat
deriving DecidableEq

/-- The 200 body of decrypt_cipher, as a function of the decrypted text
and the processed (stripped, uppercased) key. -/
def decrypt_response (decrypted key : List Nat) : DecryptResponse :=
  { success := true
    decrypted_message := decrypted
    congratulations := check_solution_complexity decrypted key
    complexity_score :=
      if check_solution_complexity decrypted key then ascii ("High") else ascii ("Partial")
    hint :=
      if check_solution_complexity decrypted key then []
      else ascii ("Try different cipher types and Caesar shifts if unsuccessful.") }

/-- The /decrypt handler: the key is stripped and uppercased; missing
cipher text or key gives a 400 error, otherwise a 200 response built
from advanced_vigenere_decrypt and check_solution_complexity. -/
def decrypt_cipher (cipher_text key_raw : List Nat) (caesar_shift : ℤ) :
    Except (List Nat × Nat) DecryptResponse :=
  if cipher_text = [] ∨ upperStr (pyStrip key_raw) = [] then
    Except.error (ascii ("Missing cipher text or key"), 400)
  else
    Except.ok (decrypt_response
      (advanced_vigenere_decrypt cipher_text (upperStr (pyStrip key_raw)) caesar_shift)
      (upperStr (pyStrip key_raw)))

/-- A concrete 200 response used as evaluation data. -/
def sampleDecryptResponse : DecryptResponse :=
  { success := true
    decrypted_message := ascii ("W")
    congratulations := false
    complexity_score := ascii ("Partial")
    hint := ascii ("Try different cipher types and Caesar shifts if unsuccessful.") }

/-- Number of alphabetic characters strictly before position j: the
Vigenere key index in effect at position j. -/
def alphaCountBefore (text : List Nat) (j : Nat) : Nat :=
  ((text.take j).filter isAlphaCode).length

/-! ## Cipher bundle (extract_complex_metadata) -/

/-- Python f-string `02d` padding for numbers below 100. -/
def twoDigitPad (n : Nat) : List Nat := [48 + n / 10, 48 + n % 10]

structure CipherBundle where
  primary : List Nat
  secondary : List Nat
  tertiary : List Nat
  quaternary : List Nat
deriving DecidableEq

/-- extract_complex_metadata from src/api/index.py, with the wall clock
abstracted to the current local hour and the mutagen tag read abstracted
to an optional concatenated tag string (`none` models both absent tags
and a tag-read exception, which is swallowed). The quaternary field is
the literal prefix plus `datetime.now().hour % 13` zero-padded to two
digits. -/
def extract_complex_metadata (hour : Nat) (tagText : Option (List Nat)) : CipherBundle :=
  { primary := ascii ("NKOOR_IURP_JLUDWLQD_UHDOP")
    secondary := ascii ("FDHVDU_FLSKHU_ZLWK_NHBZRUG")
    tertiary :=
      match tagText with
      | some t => if t ≠ [] then t else ascii ("WLPH_EDVHG_HQFULSWLRQ")
      | none => ascii ("WLPH_EDVHG_HQFULSWLRQ")
    quaternary := ascii ("WLPH_VKLIW_") ++ twoDigitPad (hour % 13) }

/-- The quaternary field as the claim words it: the literal prefix
followed by the current local hour (0-23) zero-padded to two digits
(spec-side definition, to be compared with the code). -/
def claimQuaternary (hour : Nat) : List Nat :=
  ascii ("WLPH_VKLIW_") ++ twoDigitPad hour

/-! ## Frequency-domain extraction (extract_frequency_domain_data) -/

/-- Python int() applied to a rational: truncation toward zero. -/
def pyTrunc (q : ℚ) : ℤ := Int.tdiv q.num q.den

/-- Absolute value on ℚ, written executably (np.abs). -/
def qAbs (q : ℚ) : ℚ := if q < 0 then -q else q

/-- Exact rational subtraction, written through mkRat so that it
evaluates by kernel reduction. -/
def qSub (a b : ℚ) : ℚ := mkRat (a.num * (b.den : ℤ) - b.num * (a.den : ℤ)) (a.den * b.den)

/-- Exact rational multiplication, written through mkRat so that it
evaluates by kernel reduction. -/
def qMul (a b : ℚ) : ℚ := mkRat (a.num * b.num) (a.den * b.den)

/-- Mathematical floor of a rational (the claim reads int() as floor). -/
def floorVal (q : ℚ) : ℤ := Int.fdiv q.num q.den

/-- One entry of np.fft.fftfreq(n, 1/sample_rate): index i maps to
i*sample_rate/n for i below (n+1)/2 and to (i-n)*sample_rate/n above. -/
def fftfreqVal (n : Nat) (sample_rate : ℤ) (i : Nat) : ℚ :=
  Rat.divInt ((if i < (n + 1) / 2 then (i : ℤ) else (i : ℤ) - n) * sample_rate) n

/-- The FFT frequency-bin axis np.fft.fftfreq(len(data), 1/sample_rate). -/
def freq_bins (n : Nat) (sample_rate : ℤ) : List ℚ :=
  (List.range n).map (fftfreqVal n sample_rate)

/-- Tail-recursive core of np.argmin: carries the best (index, value)
pair, keeping the earliest index on ties (strict comparison). -/
def argminFrom : List ℚ → Nat → Nat × ℚ → Nat × ℚ
  | [], _, best => best
  | x :: rest, i, (bi, bv) =>
    if x < bv then argminFrom rest (i + 1) (i, x)
    else argminFrom rest (i + 1) (bi, bv)

/-- np.argmin over a rational list: index of the first minimum. -/
def argmin : List ℚ → Nat
  | [] => 0
  | x :: rest => (argminFrom rest 1 (0, x)).1

def target_freqs : List ℚ := [440, 880, 1320, 1760]

/-- The loop body of extract_frequency_domain_data: for each target
frequency take the bin minimizing the distance to the frequency axis and
append `int(phase[bin_idx] * 1000) % 2` when the bin index is in range. -/
def extract_frequency_body (phase bins : List ℚ) : List ℤ :=
  target_freqs.foldl (fun hidden_data freq =>
    let bin_idx := argmin (bins.map (fun fb => qAbs (qSub fb freq)))
    if bin_idx < phase.length then
      hidden_data ++ [(pyTrunc (qMul (phase.getD bin_idx 0) 1000)) % 2]
    else hidden_data) []

/-- extract_frequency_domain_data from src/api/index.py. `n` is the
signal length and `phase` abstracts `np.angle (fft data)` (a length-`n`
list of phase angles, exact rationals in place of floats). The guard
models the try/except: `n = 0` makes `fft` raise and `sample_rate = 0`
makes `1/sample_rate` raise, both caught and replaced by the fallback
list `[0, 1, 0, 1]`. -/
def extract_frequency_domain_data (n : Nat) (sample_rate : ℤ) (phase : List ℚ) : List ℤ :=
  if n = 0 ∨ sample_rate = 0 then [0, 1, 0, 1]
  else extract_frequency_body phase (freq_bins n sample_rate)

/-! ## Multi-LSB extraction (extract_multi_lsb_audio) -/

/-- numpy arithmetic right shift on an integer sample value. -/
def pyShiftRight (x : ℤ) (b : Nat) : ℤ := Int.fdiv x (2 ^ b)

/-- astype(np.int16): wrap an integer into the signed 16-bit range. -/
def toInt16 (x : ℤ) : ℤ := (x + 32768) % 65536 - 32768

/-- np.mean of one multi-channel frame, as an exact rational. -/
def npMeanRow (row : List ℤ) : ℚ := Rat.divInt row.sum row.length

/-- Mono reduction np.mean(data, axis=1).astype(np.int16): channel
average truncated toward zero and cast to int16. -/
def monoReduce (frames : List (List ℤ)) : List ℤ :=
  frames.map (fun row => toInt16 (pyTrunc (npMeanRow row)))

/-- Input of extract_multi_lsb_audio: a 1-D sample list or a 2-D list of
per-sample channel frames. -/
inductive AudioData where
  | mono (samples : List ℤ)
  | multi (frames : List (List ℤ))

/-- The mono signal the extraction works on: multi-channel input is
first collapsed by averaging. -/
def monoOf : AudioData → List ℤ
  | .mono s => s
  | .multi f => monoReduce f

/-- The Python integer `16383 >> bit_pos`, as an integer scale factor. -/
def int16Scale (bit_pos : Nat) : ℤ := ((16383 >>> bit_pos : Nat) : ℤ)

/-- extract_multi_lsb_audio from src/api/index.py: for each requested
bit position, isolate that bit of every (mono) sample, map it to
{-1, +1}, scale by `16383 >> bit_pos` and cast to int16. Layers are
returned as (bit position, layer) pairs in request order. -/
def extract_multi_lsb_audio (data : AudioData) (bit_positions : List Nat) :
    List (Nat × List ℤ) :=
  bit_positions.map (fun bit_pos =>
    (bit_pos, (monoOf data).map (fun x =>
      let lsb := (pyShiftRight x bit_pos) % 2
      toInt16 ((lsb * 2 - 1) * int16Scale bit_pos))))

example : check_solution_complexity (ascii ("XGIRATINAX")) (ascii ("giratina")) = true := by decide
example : check_solution_complexity (ascii ("XGIRATINAX")) (ascii ("PIKACHU")) = false := by decide
example : check_solution_complexity (ascii ("NOPE")) (ascii ("ARCEUS")) = false := by decide
example : advanced_vigenere_decrypt (ascii ("A")) (ascii ("B")) 3 = ascii ("W") := by decide
example : extract_frequency_domain_data 1 1 [Rat.divInt (-1) 2000] = [0, 0, 0, 0] := by decide
example : extract_frequency_domain_data 0 44100 [] = [0, 1, 0, 1] := by decide
example : extract_multi_lsb_audio (.mono [5, -3]) [0, 1, 2] =
    [(0, [16383, 16383]), (1, [-8191, -8191]), (2, [4095, 4095])] := by decide
example : (extract_complex_metadata 13 none).quaternary = ascii ("WLPH_VKLIW_00") := by decide
example : upload_check (ascii ("A.WAV")) = none := by decide
example : upload_check (ascii ("a.txt")) = some (ascii ("Only WAV files are accepted"), 400) := by decide

/-! ## Helper lemmas -/

theorem pyInStr_iff (sub s : List Nat) : pyInStr sub s = true ↔ sub <:+: s := by
  induction s with
  | nil => simp [pyInStr, List.isEmpty_iff]
  | cons c rest ih =>
    simp [pyInStr, List.infix_cons_iff, ih, List.isPrefixOf_iff_prefix]

theorem getD_map_of_lt {α β : Type} (f : α → β) (l : List α) (i : Nat) (d : β) (d' : α)
    (h : i < l.length) : (l.map f).getD i d = f (l.getD i d') := by
  induction l generalizing i with
  | nil => simp at h
  | cons a t ih =>
    cases i with
    | zero => rfl
    | succ j => simpa using ih j (by simpa using h)

/-! ## C1: solution scoring -/

/-- C1: check_solution_complexity declares success exactly when the
uppercased decrypted text contains one of the fixed success substrings
AND the uppercased key is one of the fixed allowed keys; neither
condition alone reaches the 15-point threshold. -/
theorem C1_scoring_requires_both (decrypted_text pokemon_key : List Nat) :
    check_solution_complexity decrypted_text pokemon_key = true ↔
      ((∃ ind ∈ success_indicators, ind <:+: upperStr decrypted_text) ∧
        upperStr pokemon_key ∈ pokemon_names) := by
  have hany : (success_indicators.any (fun ind => pyInStr ind (upperStr decrypted_text)) = true) ↔
      ∃ ind ∈ success_indicators, ind <:+: upperStr decrypted_text := by
    simp [List.any_eq_true, pyInStr_iff]
  have hmem : (pokemon_names.contains (upperStr pokemon_key) = true) ↔
      upperStr pokemon_key ∈ pokemon_names := by
    simp [List.contains, List.elem_iff]
  unfold check_solution_complexity
  rw [← hany, ← hmem]
  by_cases h1 : success_indicators.any (fun ind => pyInStr ind (upperStr decrypted_text)) = true <;>
    by_cases h2 : pokemon_names.contains (upperStr pokemon_key) = true <;>
      simp [h1, h2] <;> rw [hmem] at h2 <;> simp [h2]

/-! ## C9: upload filename validation -/

/-- C9: a non-empty uploaded filename is rejected with status 400 and
error "Only WAV files are accepted" exactly when its lowercased form
does not end in ".wav"; the extension check is case-insensitive. -/
theorem C9_upload_extension_check (filename : List Nat) (hfn : filename ≠ []) :
    upload_check filename = some (ascii ("Only WAV files are accepted"), 400) ↔
      ¬ (ascii (".wav") <:+ lowerStr filename) := by
  unfold upload_check
  rw [if_neg hfn]
  by_cases hs : (ascii (".wav")).isSuffixOf (lowerStr filename) = true
  · rw [if_neg (by simp [hs])]
    simp only [List.isSuffixOf_iff_suffix] at hs
    simp [hs]
  · rw [if_pos (by simp [hs])]
    simp only [List.isSuffixOf_iff_suffix] at hs
    simp [hs]

theorem C9_upload_extension_check_witness :
    (ascii ("report.txt") ≠ []) ∧
      (upload_check (ascii ("report.txt")) = some (ascii ("Only WAV files are accepted"), 400) ↔
        ¬ (ascii (".wav") <:+ lowerStr (ascii ("report.txt")))) :=
  ⟨by decide, C9_upload_extension_check (ascii ("report.txt")) (by decide)⟩

/-! ## C10: /decrypt 200 responses -/

theorem decrypt_response_shape (decrypted key : List Nat) :
    (decrypt_response decrypted key).success = true ∧
    ((decrypt_response decrypted key).congratulations = true →
      (decrypt_response decrypted key).complexity_score = ascii ("High")) ∧
    ((decrypt_response decrypted key).congratulations = false →
      (decrypt_response decrypted key).complexity_score = ascii ("Partial")) ∧
    ((decrypt_response decrypted key).hint ≠ [] ↔
      (decrypt_response decrypted key).congratulations = false) := by
  cases hs : check_solution_complexity decrypted key with
  | false =>
    unfold decrypt_response
    rw [hs]
    refine ⟨rfl, by simp, fun _ => rfl, ⟨fun _ => rfl, fun _ => ?_⟩⟩
    show ascii ("Try different cipher types and Caesar shifts if unsuccessful.") ≠ []
    decide
  | true =>
    unfold decrypt_response
    rw [hs]
    exact ⟨rfl, fun _ => rfl, by simp, ⟨fun hne => absurd rfl hne, fun hf => by cases hf⟩⟩

/-- C10: every 200 response of the /decrypt handler has success = True;
the verdict is carried by the congratulations field, complexity_score is
"High" exactly on a true verdict and "Partial" otherwise, and the hint
is non-empty exactly on a false verdict. -/
theorem C10_decrypt_response_shape (cipher_text key_raw : List Nat) (caesar_shift : ℤ)
    (r : DecryptResponse) (h : decrypt_cipher cipher_text key_raw caesar_shift = Except.ok r) :
    r.success = true ∧
    (r.congratulations = true → r.complexity_score = ascii ("High")) ∧
    (r.congratulations = false → r.complexity_score = ascii ("Partial")) ∧
    (r.hint ≠ [] ↔ r.congratulations = false) := by
  unfold decrypt_cipher at h
  split at h
  · exact absurd h (by simp)
  · rw [Except.ok.injEq] at h
    subst h
    exact decrypt_response_shape _ _

theorem C10_decrypt_response_shape_witness :
    sampleDecryptResponse.success = true ∧
    (sampleDecryptResponse.congratulations = true →
      sampleDecryptResponse.complexity_score = ascii ("High")) ∧
    (sampleDecryptResponse.congratulations = false →
      sampleDecryptResponse.complexity_score = ascii ("Partial")) ∧
    (sampleDecryptResponse.hint ≠ [] ↔ sampleDecryptResponse.congratulations = false) :=
  C10_decrypt_response_shape (ascii ("A")) (ascii ("B")) 3 sampleDecryptResponse rfl

/-! ## C8: the Caesar shift only matters modulo 26 -/

/-- C8: advanced_vigenere_decrypt gives the same output for shift s and
shift s + 26, for every ciphertext and non-empty key. -/
theorem C8_shift_periodic (ciphertext key : List Nat) (hkey : key ≠ []) (s : ℤ) :
    advanced_vigenere_decrypt ciphertext key s =
      advanced_vigenere_decrypt ciphertext key (s + 26) := by
  have hchar : ∀ c, caesarShiftChar s c = caesarShiftChar (s + 26) c := by
    intro c
    unfold caesarShiftChar
    split
    · have : ((upperCode c : ℤ) - 65 - s) % 26 =
          ((upperCode c : ℤ) - 65 - (s + 26)) % 26 := by omega
      rw [this]
    · rfl
  unfold advanced_vigenere_decrypt caesarStage
  rw [funext hchar]

theorem C8_shift_periodic_witness :
    advanced_vigenere_decrypt (ascii ("AB-C")) (ascii ("KEY")) (-5) =
      advanced_vigenere_decrypt (ascii ("AB-C")) (ascii ("KEY")) (-5 + 26) :=
  C8_shift_periodic (ascii ("AB-C")) (ascii ("KEY")) (by decide) (-5)

/-! ## C4: the quaternary cipher field -/

/-- C4 counterexample: at hour 13 the code produces the prefix followed
by "00" (hour % 13), not "13" as the formula of the claim says. -/
theorem C4_quaternary_counterexample :
    (extract_complex_metadata 13 none).quaternary ≠ claimQuaternary 13 := by decide

/-- C4 amended: the quaternary field is the literal prefix followed by
(hour % 13) zero-padded to two digits; it is stable within an hour and
changes at every hour boundary. -/
theorem C4_quaternary_amended (hour : Nat) (tags : Option (List Nat)) (hh : hour < 24) :
    (extract_complex_metadata hour tags).quaternary =
      ascii ("WLPH_VKLIW_") ++ twoDigitPad (hour % 13) ∧
    (extract_complex_metadata hour tags).quaternary ≠
      (extract_complex_metadata ((hour + 1) % 24) tags).quaternary := by
  have hq : ∀ (h : Nat) (t : Option (List Nat)),
      (extract_complex_metadata h t).quaternary =
        ascii ("WLPH_VKLIW_") ++ twoDigitPad (h % 13) := fun h t => rfl
  refine ⟨hq hour tags, ?_⟩
  rw [hq, hq]
  have h24 : ∀ h : Nat, h < 24 →
      ascii ("WLPH_VKLIW_") ++ twoDigitPad (h % 13) ≠
        ascii ("WLPH_VKLIW_") ++ twoDigitPad ((h + 1) % 24 % 13) := by decide
  exact h24 hour hh

theorem C4_quaternary_amended_witness :
    (0 < 24) ∧
    ((extract_complex_metadata 0 none).quaternary =
      ascii ("WLPH_VKLIW_") ++ twoDigitPad (0 % 13) ∧
    (extract_complex_metadata 0 none).quaternary ≠
      (extract_complex_metadata ((0 + 1) % 24) none).quaternary) :=
  ⟨by decide, C4_quaternary_amended 0 none (by decide)⟩

/-! ## C7: multi-LSB layer values -/

/-- C7: every value of the layer for bit position b equals
(2*bit - 1) * (16383 >> b), with bit the b-th bit of the mono-averaged
sample at the same index, and so lies in [-(16383 >> b), 16383 >> b]. -/
theorem C7_lsb_layer_values (data : AudioData) (bit_positions : List Nat) (b : Nat)
    (layer : List ℤ) (hmem : (b, layer) ∈ extract_multi_lsb_audio data bit_positions)
    (i : Nat) (hi : i < layer.length) :
    layer.getD i 0 =
      (2 * (pyShiftRight ((monoOf data).getD i 0) b % 2) - 1) * int16Scale b ∧
    -(int16Scale b) ≤ layer.getD i 0 ∧
    layer.getD i 0 ≤ int16Scale b := by
  unfold extract_multi_lsb_audio at hmem
  rw [List.mem_map] at hmem
  obtain ⟨bp, hbp, heq⟩ := hmem
  rw [Prod.mk.injEq] at heq
  obtain ⟨hb, hl⟩ := heq
  rw [hb] at hbp hl
  subst hl
  have hlen : i < (monoOf data).length := by simpa using hi
  rw [getD_map_of_lt _ _ i (0 : ℤ) (0 : ℤ) hlen]
  have hmnn : (0 : ℤ) ≤ int16Scale b := Int.natCast_nonneg _
  have hmle : int16Scale b ≤ 16383 := by
    have h : (16383 >>> b : Nat) ≤ 16383 := by
      rw [Nat.shiftRight_eq_div_pow]
      exact Nat.div_le_self _ _
    unfold int16Scale
    exact_mod_cast h
  have key : ∀ y : ℤ,
      toInt16 ((y % 2 * 2 - 1) * int16Scale b) =
        (2 * (y % 2) - 1) * int16Scale b ∧
      -(int16Scale b) ≤ toInt16 ((y % 2 * 2 - 1) * int16Scale b) ∧
      toInt16 ((y % 2 * 2 - 1) * int16Scale b) ≤ int16Scale b := by
    intro y
    unfold toInt16
    have h2 : y % 2 = 0 ∨ y % 2 = 1 := by omega
    rcases h2 with h | h <;> rw [h] <;> omega
  exact key (pyShiftRight ((monoOf data).getD i 0) b)

theorem C7_lsb_layer_values_witness :
    ((0, ([16383, 16383] : List ℤ)) ∈
      extract_multi_lsb_audio (.mono [5, -3]) [0, 1, 2]) ∧ (0 < 2) ∧
    (([16383, 16383] : List ℤ).getD 0 0 =
      (2 * (pyShiftRight ((monoOf (.mono [5, -3])).getD 0 0) 0 % 2) - 1) * int16Scale 0 ∧
    -(int16Scale 0) ≤ ([16383, 16383] : List ℤ).getD 0 0 ∧
    ([16383, 16383] : List ℤ).getD 0 0 ≤ int16Scale 0) :=
  ⟨by decide, by decide,
    C7_lsb_layer_values (.mono [5, -3]) [0, 1, 2] 0 [16383, 16383] (by decide) 0 (by decide)⟩

/-! ## np.argmin facts -/

theorem argminFrom_min (l : List ℚ) : ∀ (i bi : Nat) (bv : ℚ),
    (argminFrom l i (bi, bv)).2 ≤ bv ∧
    ∀ j, j < l.length → (argminFrom l i (bi, bv)).2 ≤ l.getD j 0 := by
  induction l with
  | nil =>
    intro i bi bv
    exact ⟨le_refl _, fun j hj => absurd hj (by simp)⟩
  | cons x rest ih =>
    intro i bi bv
    simp only [argminFrom]
    split
    · rename_i hx
      obtain ⟨h1, h2⟩ := ih (i + 1) i x
      refine ⟨le_trans h1 (le_of_lt hx), fun j hj => ?_⟩
      cases j with
      | zero => simpa using h1
      | succ k =>
        have hk : k < rest.length := by simpa using hj
        simpa using h2 k hk
    · rename_i hx
      obtain ⟨h1, h2⟩ := ih (i + 1) bi bv
      refine ⟨h1, fun j hj => ?_⟩
      cases j with
      | zero =>
        have hbx : bv ≤ x := le_of_not_lt hx
        simpa using le_trans h1 hbx
      | succ k =>
        have hk : k < rest.length := by simpa using hj
        simpa using h2 k hk

theorem argminFrom_index (l : List ℚ) : ∀ (i bi : Nat) (bv : ℚ),
    ((argminFrom l i (bi, bv)).1 = bi ∧ (argminFrom l i (bi, bv)).2 = bv) ∨
    ∃ j, j < l.length ∧ (argminFrom l i (bi, bv)).1 = i + j ∧
      (argminFrom l i (bi, bv)).2 = l.getD j 0 := by
  induction l with
  | nil =>
    intro i bi bv
    exact Or.inl ⟨rfl, rfl⟩
  | cons x rest ih =>
    intro i bi bv
    simp only [argminFrom]
    split
    · rcases ih (i + 1) i x with ⟨h1, h2⟩ | ⟨j, hj, h1, h2⟩
      · refine Or.inr ⟨0, by simp, ?_, ?_⟩
        · rw [h1]
          omega
        · simpa using h2
      · refine Or.inr ⟨j + 1, by simpa using hj, ?_, ?_⟩
        · rw [h1]
          omega
        · simpa using h2
    · rcases ih (i + 1) bi bv with h | ⟨j, hj, h1, h2⟩
      · exact Or.inl h
      · refine Or.inr ⟨j + 1, by simpa using hj, ?_, ?_⟩
        · rw [h1]
          omega
        · simpa using h2

/-- np.argmin returns an in-range index whose entry is a minimum of the
list (the first such index). -/
theorem argmin_spec (l : List ℚ) (hl : l ≠ []) :
    argmin l < l.length ∧ ∀ j, j < l.length → l.getD (argmin l) 0 ≤ l.getD j 0 := by
  cases l with
  | nil => exact absurd rfl hl
  | cons x rest =>
    have hmin := argminFrom_min rest 1 0 x
    have hidx := argminFrom_index rest 1 0 x
    have hval : (x :: rest).getD (argmin (x :: rest)) 0 = (argminFrom rest 1 (0, x)).2 := by
      simp only [argmin]
      rcases hidx with ⟨h1, h2⟩ | ⟨j, hj, h1, h2⟩
      · rw [h1, h2]
        simp
      · rw [h1, h2, Nat.add_comm 1 j]
        simp
    have hlt : argmin (x :: rest) < (x :: rest).length := by
      simp only [argmin]
      rcases hidx with ⟨h1, _⟩ | ⟨j, hj, h1, _⟩
      · rw [h1]
        simp
      · rw [h1]
        simp
        omega
    refine ⟨hlt, fun j hj => ?_⟩
    rw [hval]
    cases j with
    | zero => simpa using hmin.1
    | succ k =>
      have hk : k < rest.length := by simpa using hj
      simpa using hmin.2 k hk

theorem freq_bins_length (n : Nat) (sample_rate : ℤ) :
    (freq_bins n sample_rate).length = n := by
  simp [freq_bins]

theorem argmin_dist_lt (n : Nat) (sample_rate : ℤ) (phase : List ℚ)
    (hlen : phase.length = n) (hn : n ≠ 0) :
    ∀ freq : ℚ,
      argmin ((freq_bins n sample_rate).map (fun fb => qAbs (qSub fb freq))) < phase.length := by
  intro freq
  have hne : (freq_bins n sample_rate).map (fun fb => qAbs (qSub fb freq)) ≠ [] := by
    refine List.ne_nil_of_length_pos ?_
    rw [List.length_map, freq_bins_length]
    omega
  have h := (argmin_spec _ hne).1
  rw [List.length_map, freq_bins_length] at h
  rw [hlen]
  exact h

/-- The loop of extract_frequency_domain_data, unrolled over the four
target frequencies when every chosen bin is in range. -/
theorem extract_frequency_body_eq (phase bins : List ℚ)
    (h : ∀ freq : ℚ, argmin (bins.map (fun fb => qAbs (qSub fb freq))) < phase.length) :
    extract_frequency_body phase bins =
      [(pyTrunc (qMul (phase.getD (argmin (bins.map (fun fb => qAbs (qSub fb 440)))) 0) 1000)) % 2,
       (pyTrunc (qMul (phase.getD (argmin (bins.map (fun fb => qAbs (qSub fb 880)))) 0) 1000)) % 2,
       (pyTrunc (qMul (phase.getD (argmin (bins.map (fun fb => qAbs (qSub fb 1320)))) 0) 1000)) % 2,
       (pyTrunc (qMul (phase.getD (argmin (bins.map (fun fb => qAbs (qSub fb 1760)))) 0) 1000)) % 2] := by
  unfold extract_frequency_body target_freqs
  simp only [List.foldl_cons, List.foldl_nil]
  rw [if_pos (h 440), if_pos (h 880), if_pos (h 1320), if_pos (h 1760)]
  rfl

/-! ## C6: shape of the frequency fingerprint -/

/-- C6: for any signal length and sample rate the result is exactly 4
values, each 0 or 1, and any internal failure (empty FFT input or zero
sample rate) yields the fixed fallback [0, 1, 0, 1]. -/
theorem C6_frequency_data_shape (n : Nat) (sample_rate : ℤ) (phase : List ℚ)
    (hlen : phase.length = n) :
    (extract_frequency_domain_data n sample_rate phase).length = 4 ∧
    (∀ v ∈ extract_frequency_domain_data n sample_rate phase, v = 0 ∨ v = 1) ∧
    ((n = 0 ∨ sample_rate = 0) →
      extract_frequency_domain_data n sample_rate phase = [0, 1, 0, 1]) := by
  by_cases hfail : n = 0 ∨ sample_rate = 0
  · unfold extract_frequency_domain_data
    rw [if_pos hfail]
    refine ⟨rfl, ?_, fun _ => rfl⟩
    intro v hv
    simp at hv
    tauto
  · unfold extract_frequency_domain_data
    rw [if_neg hfail]
    push_neg at hfail
    obtain ⟨hn, hsr⟩ := hfail
    rw [extract_frequency_body_eq phase _ (argmin_dist_lt n sample_rate phase hlen hn)]
    refine ⟨rfl, ?_, fun hc => absurd hc (by push_neg; exact ⟨hn, hsr⟩)⟩
    intro v hv
    simp only [List.mem_cons, List.not_mem_nil, or_false] at hv
    rcases hv with h | h | h | h <;> rw [h] <;> omega

theorem C6_frequency_data_shape_witness :
    (([(0 : ℚ)] : List ℚ).length = 1) ∧
    ((extract_frequency_domain_data 1 1 [(0 : ℚ)]).length = 4 ∧
    (∀ v ∈ extract_frequency_domain_data 1 1 [(0 : ℚ)], v = 0 ∨ v = 1) ∧
    ((1 = 0 ∨ (1 : ℤ) = 0) → extract_frequency_domain_data 1 1 [(0 : ℚ)] = [0, 1, 0, 1])) :=
  ⟨by decide, C6_frequency_data_shape 1 1 [(0 : ℚ)] (by decide)⟩

/-! ## C5: bin choice and the extracted value -/

/-- C5 counterexample: with a one-sample signal at sample rate 1 and
phase -1/2000 at the (unique, chosen) bin, the code extracts
int(-0.5) % 2 = 0 while the floor formula of the claim gives
floor(-0.5) % 2 = 1. -/
theorem C5_floor_counterexample :
    argmin ((freq_bins 1 1).map (fun fb => qAbs (qSub fb 440))) = 0 ∧
    (extract_frequency_domain_data 1 1 [Rat.divInt (-1) 2000]).getD 0 0 = 0 ∧
    (floorVal (qMul (([Rat.divInt (-1) 2000] : List ℚ).getD 0 0) 1000)) % 2 = 1 := by
  decide

/-- C5 amended: for each of the four target frequencies, the chosen bin
minimizes the absolute difference on the FFT frequency-bin axis, and the
extracted value is int(phase * 1000) % 2 with int() truncating toward
zero (not floor: the two differ on negative phases). -/
theorem C5_bin_and_value_amended (n : Nat) (sample_rate : ℤ) (phase : List ℚ)
    (hlen : phase.length = n) (hn : 1 ≤ n) (hsr : sample_rate ≠ 0)
    (i : Nat) (hi : i < 4) :
    argmin ((freq_bins n sample_rate).map
        (fun fb => qAbs (qSub fb (target_freqs.getD i 0)))) < n ∧
    (∀ j, j < n →
      ((freq_bins n sample_rate).map
          (fun fb => qAbs (qSub fb (target_freqs.getD i 0)))).getD
        (argmin ((freq_bins n sample_rate).map
          (fun fb => qAbs (qSub fb (target_freqs.getD i 0))))) 0 ≤
      ((freq_bins n sample_rate).map
          (fun fb => qAbs (qSub fb (target_freqs.getD i 0)))).getD j 0) ∧
    (extract_frequency_domain_data n sample_rate phase).getD i 0 =
      (pyTrunc (qMul (phase.getD
        (argmin ((freq_bins n sample_rate).map
          (fun fb => qAbs (qSub fb (target_freqs.getD i 0))))) 0) 1000)) % 2 := by
  have hn0 : n ≠ 0 := by omega
  have hne : (freq_bins n sample_rate).map
      (fun fb => qAbs (qSub fb (target_freqs.getD i 0))) ≠ [] := by
    refine List.ne_nil_of_length_pos ?_
    rw [List.length_map, freq_bins_length]
    omega
  have hspec := argmin_spec _ hne
  have hlen2 : ((freq_bins n sample_rate).map
      (fun fb => qAbs (qSub fb (target_freqs.getD i 0)))).length = n := by
    rw [List.length_map, freq_bins_length]
  refine ⟨?_, ?_, ?_⟩
  · have h1 := hspec.1
    rw [hlen2] at h1
    exact h1
  · intro j hj
    exact hspec.2 j (by rw [hlen2]; exact hj)
  · unfold extract_frequency_domain_data
    rw [if_neg (by push_neg; exact ⟨hn0, hsr⟩)]
    rw [extract_frequency_body_eq phase _ (argmin_dist_lt n sample_rate phase hlen hn0)]
    interval_cases i <;> rfl

theorem C5_bin_and_value_amended_witness :
    (([Rat.divInt 1 2] : List ℚ).length = 1) ∧ (1 ≤ 1) ∧ ((1 : ℤ) ≠ 0) ∧ (0 < 4) ∧
    (argmin ((freq_bins 1 1).map
        (fun fb => qAbs (qSub fb (target_freqs.getD 0 0)))) < 1 ∧
    (∀ j, j < 1 →
      ((freq_bins 1 1).map
          (fun fb => qAbs (qSub fb (target_freqs.getD 0 0)))).getD
        (argmin ((freq_bins 1 1).map
          (fun fb => qAbs (qSub fb (target_freqs.getD 0 0))))) 0 ≤
      ((freq_bins 1 1).map
          (fun fb => qAbs (qSub fb (target_freqs.getD 0 0)))).getD j 0) ∧
    (extract_frequency_domain_data 1 1 [Rat.divInt 1 2]).getD 0 0 =
      (pyTrunc (qMul (([Rat.divInt 1 2] : List ℚ).getD
        (argmin ((freq_bins 1 1).map
          (fun fb => qAbs (qSub fb (target_freqs.getD 0 0))))) 0) 1000)) % 2) :=
  ⟨by decide, by decide, by decide, by decide,
    C5_bin_and_value_amended 1 1 [Rat.divInt 1 2] (by decide) (by decide) (by decide) 0
      (by decide)⟩

/-! ## Character arithmetic lemmas for the cipher stages -/

theorem emod26_add65_isAlpha (a : ℤ) : isAlphaCode ((a % 26 + 65).toNat) = true := by
  have h1 : 0 ≤ a % 26 := Int.emod_nonneg a (by norm_num)
  have h2 : a % 26 < 26 := Int.emod_lt_of_pos a (by norm_num)
  unfold isAlphaCode
  simp only [Bool.or_eq_true, Bool.and_eq_true, decide_eq_true_eq]
  left
  omega

theorem emod26_add65_upperCode (a : ℤ) :
    upperCode ((a % 26 + 65).toNat) = (a % 26 + 65).toNat := by
  have h1 : 0 ≤ a % 26 := Int.emod_nonneg a (by norm_num)
  have h2 : a % 26 < 26 := Int.emod_lt_of_pos a (by norm_num)
  unfold upperCode
  rw [if_neg]
  simp only [Bool.and_eq_true, decide_eq_true_eq]
  omega

theorem emod26_add65_cast (a : ℤ) : (((a % 26 + 65).toNat : ℤ)) = a % 26 + 65 := by
  have h1 : 0 ≤ a % 26 := Int.emod_nonneg a (by norm_num)
  omega

theorem upperCode_mem_range (c : Nat) (hc : isAlphaCode c = true) :
    65 ≤ upperCode c ∧ upperCode c ≤ 90 := by
  unfold isAlphaCode at hc
  simp only [Bool.or_eq_true, Bool.and_eq_true, decide_eq_true_eq] at hc
  unfold upperCode
  split
  · rename_i h
    simp only [Bool.and_eq_true, decide_eq_true_eq] at h
    omega
  · rename_i h
    simp only [Bool.and_eq_true, decide_eq_true_eq] at h
    omega

theorem caesar_encrypt_cons (s : ℤ) (c : Nat) (t : List Nat) :
    caesar_encrypt s (c :: t) =
      (if isAlphaCode c then (((upperCode c : ℤ) - 65 + s) % 26 + 65).toNat else c)
        :: caesar_encrypt s t := rfl

theorem caesarStage_cons (s : ℤ) (c : Nat) (t : List Nat) :
    caesarStage s (c :: t) = caesarShiftChar s c :: caesarStage s t := rfl

/-! ## C2: encrypt-then-decrypt round trip -/

theorem roundtrip_go (key : List Nat) (s : ℤ) :
    ∀ (text : List Nat), (∀ c ∈ text, isAlphaCode c = true) → ∀ i : Nat,
      vigenereGo key i (caesarStage s (caesar_encrypt s (vigenereEncGo key i text))) =
        upperStr text := by
  intro text
  induction text with
  | nil =>
    intro _ i
    rfl
  | cons c rest ih =>
    intro halpha i
    have hc : isAlphaCode c = true := halpha c (List.mem_cons_self c rest)
    have hrest : ∀ x ∈ rest, isAlphaCode x = true :=
      fun x hx => halpha x (List.mem_cons_of_mem c hx)
    simp only [vigenereEncGo]
    rw [if_pos hc]
    rw [caesar_encrypt_cons]
    rw [if_pos (emod26_add65_isAlpha _)]
    rw [emod26_add65_upperCode, emod26_add65_cast]
    rw [caesarStage_cons]
    simp only [caesarShiftChar]
    rw [if_pos (emod26_add65_isAlpha _)]
    rw [emod26_add65_upperCode, emod26_add65_cast]
    simp only [vigenereGo]
    rw [if_pos (emod26_add65_isAlpha _)]
    rw [emod26_add65_upperCode, emod26_add65_cast]
    rw [ih hrest (i + 1)]
    rw [show upperStr (c :: rest) = upperCode c :: upperStr rest from rfl]
    simp only [List.cons.injEq]
    refine ⟨?_, trivial⟩
    have hu := upperCode_mem_range c hc
    omega

/-- C2: encrypting alphabetic-only text with the reference Vigenère
cipher then the reference Caesar cipher, and decrypting with
advanced_vigenere_decrypt under the same key and shift, returns the
original text uppercased. -/
theorem C2_encrypt_decrypt_roundtrip (text key : List Nat) (s : ℤ)
    (htext : ∀ c ∈ text, isAlphaCode c = true) (hkey : key ≠ [])
    (hkeyalpha : ∀ c ∈ key, isAlphaCode c = true) :
    advanced_vigenere_decrypt (caesar_encrypt s (vigenere_encrypt key text)) key s =
      upperStr text := by
  unfold advanced_vigenere_decrypt vigenere_encrypt
  cases text with
  | nil =>
    rw [show vigenereEncGo (upperStr key) 0 [] = [] from rfl]
    rw [show caesar_encrypt s [] = [] from rfl]
    rw [if_pos (Or.inl rfl)]
    rfl
  | cons c rest =>
    have hne : caesar_encrypt s (vigenereEncGo (upperStr key) 0 (c :: rest)) ≠ [] := by
      simp only [vigenereEncGo]
      split <;> simp [caesar_encrypt]
    rw [if_neg (by push_neg; exact ⟨hne, hkey⟩)]
    exact roundtrip_go (upperStr key) s (c :: rest) htext 0

theorem C2_encrypt_decrypt_roundtrip_witness :
    (∀ c ∈ ascii ("Hello"), isAlphaCode c = true) ∧ (ascii ("KEY") ≠ []) ∧
    (∀ c ∈ ascii ("KEY"), isAlphaCode c = true) ∧
    advanced_vigenere_decrypt
        (caesar_encrypt 7 (vigenere_encrypt (ascii ("KEY")) (ascii ("Hello"))))
        (ascii ("KEY")) 7 =
      upperStr (ascii ("Hello")) :=
  ⟨by decide, by decide, by decide,
    C2_encrypt_decrypt_roundtrip (ascii ("Hello")) (ascii ("KEY")) 7
      (by decide) (by decide) (by decide)⟩

/-! ## C3: pass-through of non-alphabetic characters and key indexing -/

theorem alphaCountBefore_cons_succ (c : Nat) (t : List Nat) (j : Nat) :
    alphaCountBefore (c :: t) (j + 1) =
      (if isAlphaCode c then 1 else 0) + alphaCountBefore t j := by
  unfold alphaCountBefore
  rw [List.take_succ_cons, List.filter_cons]
  split
  · simp [Nat.add_comm]
  · simp

theorem vigenereGo_getD (key : List Nat) :
    ∀ (text : List Nat) (i j : Nat), j < text.length →
      (vigenereGo key i text).getD j 0 =
        if isAlphaCode (text.getD j 0) then
          (((upperCode (text.getD j 0) : ℤ) - 65 -
            keyCharVal key (i + alphaCountBefore text j)) % 26 + 65).toNat
        else text.getD j 0 := by
  intro text
  induction text with
  | nil =>
    intro i j hj
    simp at hj
  | cons c rest ih =>
    intro i j hj
    simp only [vigenereGo]
    by_cases hc : isAlphaCode c = true
    · rw [if_pos hc]
      cases j with
      | zero =>
        simp only [List.getD_cons_zero]
        rw [if_pos hc]
        rfl
      | succ k =>
        have hk : k < rest.length := by simpa using hj
        simp only [List.getD_cons_succ]
        rw [ih (i + 1) k hk]
        rw [alphaCountBefore_cons_succ, if_pos hc]
        have harith : i + 1 + alphaCountBefore rest k =
            i + (1 + alphaCountBefore rest k) := by omega
        rw [harith]
    · rw [if_neg hc]
      cases j with
      | zero =>
        simp only [List.getD_cons_zero]
        rw [if_neg hc]
      | succ k =>
        have hk : k < rest.length := by simpa using hj
        simp only [List.getD_cons_succ]
        rw [ih i k hk]
        rw [alphaCountBefore_cons_succ, if_neg hc]
        rw [Nat.zero_add]

theorem isAlphaCode_caesarShiftChar (s : ℤ) (c : Nat) :
    isAlphaCode (caesarShiftChar s c) = isAlphaCode c := by
  unfold caesarShiftChar
  split
  · rename_i h
    rw [emod26_add65_isAlpha]
    exact h.symm
  · rfl

theorem alphaCountBefore_map (f : Nat → Nat) (hf : ∀ c, isAlphaCode (f c) = isAlphaCode c) :
    ∀ (l : List Nat) (j : Nat), alphaCountBefore (l.map f) j = alphaCountBefore l j := by
  intro l
  induction l with
  | nil =>
    intro j
    rfl
  | cons c t ih =>
    intro j
    cases j with
    | zero => rfl
    | succ k =>
      rw [List.map_cons, alphaCountBefore_cons_succ, alphaCountBefore_cons_succ, hf c, ih k]

/-- C3: non-alphabetic ciphertext characters appear unchanged at the
same position in both the Caesar-stage output and the final output, and
do not advance the key index: the key character used at an alphabetic
position j is the key character at position
(alphaCountBefore ciphertext j) mod (key length). -/
theorem C3_nonalpha_passthrough (ciphertext key : List Nat) (s : ℤ)
    (hkey : key ≠ []) (j : Nat) (hj : j < ciphertext.length) :
    (isAlphaCode (ciphertext.getD j 0) = false →
      (caesarStage s ciphertext).getD j 0 = ciphertext.getD j 0 ∧
      (advanced_vigenere_decrypt ciphertext key s).getD j 0 = ciphertext.getD j 0) ∧
    (isAlphaCode (ciphertext.getD j 0) = true →
      (advanced_vigenere_decrypt ciphertext key s).getD j 0 =
        (((upperCode ((caesarStage s ciphertext).getD j 0) : ℤ) - 65 -
          (((upperStr key).getD (alphaCountBefore ciphertext j % key.length) 0 : ℤ) - 65))
            % 26 + 65).toNat) := by
  have hct : ciphertext ≠ [] := by
    intro h
    subst h
    simp at hj
  have hdec : advanced_vigenere_decrypt ciphertext key s =
      vigenereGo (upperStr key) 0 (caesarStage s ciphertext) := by
    unfold advanced_vigenere_decrypt
    rw [if_neg (by push_neg; exact ⟨hct, hkey⟩)]
  have hcsj : (caesarStage s ciphertext).getD j 0 = caesarShiftChar s (ciphertext.getD j 0) := by
    unfold caesarStage
    exact getD_map_of_lt _ _ j 0 0 hj
  have hcslen : j < (caesarStage s ciphertext).length := by
    unfold caesarStage
    rw [List.length_map]
    exact hj
  have hgo := vigenereGo_getD (upperStr key) (caesarStage s ciphertext) 0 j hcslen
  have haCB : alphaCountBefore (caesarStage s ciphertext) j = alphaCountBefore ciphertext j := by
    unfold caesarStage
    exact alphaCountBefore_map _ (isAlphaCode_caesarShiftChar s) ciphertext j
  have hkl : (upperStr key).length = key.length := by
    unfold upperStr
    rw [List.length_map]
  constructor
  · intro hna
    have hcs_eq : caesarShiftChar s (ciphertext.getD j 0) = ciphertext.getD j 0 := by
      unfold caesarShiftChar
      rw [if_neg (by rw [hna]; simp)]
    refine ⟨by rw [hcsj, hcs_eq], ?_⟩
    rw [hdec, hgo, hcsj, hcs_eq]
    rw [if_neg (by rw [hna]; simp)]
  · intro ha
    rw [hdec, hgo, haCB, hcsj]
    have ha2 : isAlphaCode (caesarShiftChar s (ciphertext.getD j 0)) = true := by
      rw [isAlphaCode_caesarShiftChar, ha]
    rw [if_pos ha2]
    simp only [keyCharVal]
    rw [Nat.zero_add, hkl]

theorem C3_nonalpha_passthrough_witness :
    (ascii ("XY") ≠ []) ∧ (1 < (ascii ("A-B")).length) ∧
    ((isAlphaCode ((ascii ("A-B")).getD 1 0) = false →
      (caesarStage 3 (ascii ("A-B"))).getD 1 0 = (ascii ("A-B")).getD 1 0 ∧
      (advanced_vigenere_decrypt (ascii ("A-B")) (ascii ("XY")) 3).getD 1 0 =
        (ascii ("A-B")).getD 1 0) ∧
    (isAlphaCode ((ascii ("A-B")).getD 1 0) = true →
      (advanced_vigenere_decrypt (ascii ("A-B")) (ascii ("XY")) 3).getD 1 0 =
        (((upperCode ((caesarStage 3 (ascii ("A-B"))).getD 1 0) : ℤ) - 65 -
          (((upperStr (ascii ("XY"))).getD
              (alphaCountBefore (ascii ("A-B")) 1 % (ascii ("XY")).length) 0 : ℤ) - 65))
            % 26 + 65).toNat)) :=
  ⟨by decide, by decide,
    C3_nonalpha_passthrough (ascii ("A-B")) (ascii ("XY")) 3 (by decide) 1 (by decide)⟩
